import Mathlib

/-!
Verification of the offline translation core of the Multilingual_Bot
repository (`offline_utils.py`) and the video-provider selection logic
(`main.py`).  Python strings are embedded as `List Char`; the Argos
translation library is embedded as an environment holding the installed
language codes and an opaque per-pair translation handle.  The floating
point threshold comparisons of `_detect_language_offline`
(`x / total > 0.3`, `x / total > 0.85`) are embedded as the exact rational
comparisons `10 * x > 3 * total` and `100 * x > 85 * total`; for the text
sizes involved, IEEE double division is correctly rounded, so the two
agree.  Python `\s` is embedded as the ASCII whitespace class.
-/

/-- ASCII whitespace, embedding Python's `\s` class and `str.strip`. -/
def isSpace (c : Char) : Bool :=
  c == ' ' || c == '\t' || c == '\n' || c == '\r' || c == '\x0b' || c == '\x0c'

/-- The punctuation class `[.,!?;:]` used by the spacing regexes. -/
def isPunct (c : Char) : Bool :=
  c == '.' || c == ',' || c == '!' || c == '?' || c == ';' || c == ':'

/-- Embeds `_detect_language_offline` from offline_utils.py: script-range
counting with threshold tests, then a fixed fallback chain. -/
def detectLanguageOffline (text : List Char) (installedCodes : List String) : String :=
  let devanagariChars := text.countP (fun c => 0x900 ≤ c.toNat && c.toNat ≤ 0x97F)
  let bengaliChars := text.countP (fun c => 0x980 ≤ c.toNat && c.toNat ≤ 0x9FF)
  let arabicChars := text.countP (fun c => 0x600 ≤ c.toNat && c.toNat ≤ 0x6FF)
  let asciiChars := text.countP (fun c => c.toNat < 128)
  let totalChars := text.length
  if totalChars = 0 then "en"
  else if 10 * devanagariChars > 3 * totalChars then
    (if "hi" ∈ installedCodes then "hi" else "en")
  else if 10 * bengaliChars > 3 * totalChars then
    (if "bn" ∈ installedCodes then "bn" else "en")
  else if 10 * arabicChars > 3 * totalChars then
    (if "ur" ∈ installedCodes then "ur"
     else if "ar" ∈ installedCodes then "ar" else "en")
  else if 100 * asciiChars > 85 * totalChars then "en"
  else if "hi" ∈ installedCodes then "hi"
  else if "bn" ∈ installedCodes then "bn"
  else if "ur" ∈ installedCodes then "ur"
  else "en"

/-- The optional credentials read from the environment in `text_to_speech`
(main.py): one API key and one avatar id per video provider.  An absent
environment variable is the empty string (`os.getenv(..., "")`). -/
structure Creds where
  didKey : String
  heygenKey : String
  synthesiaKey : String
  elaiKey : String
  didAvatar : String
  heygenAvatar : String
  synthesiaAvatar : String
  elaiAvatar : String
deriving DecidableEq

/-- Outcome of the provider-selection conditional chain in `text_to_speech`
(main.py): whether an API is used, which provider, and its key/avatar. -/
structure ProviderChoice where
  useApi : Bool
  apiProvider : String
  apiKey : Option String
  avatarId : Option String
deriving DecidableEq

/-- Embeds the provider-selection chain of `text_to_speech` (main.py,
lines 310-340): nested truthiness tests on the API keys in the fixed
order D-ID, HeyGen, Synthesia, Elai, with the initial defaults
`use_api=False, api_provider="heygen", api_key=None, avatar_id=None`. -/
def selectProvider (c : Creds) : ProviderChoice :=
  if c.didKey ≠ "" then ⟨true, "d-id", some c.didKey, some c.didAvatar⟩
  else if c.heygenKey ≠ "" then ⟨true, "heygen", some c.heygenKey, some c.heygenAvatar⟩
  else if c.synthesiaKey ≠ "" then ⟨true, "synthesia", some c.synthesiaKey, some c.synthesiaAvatar⟩
  else if c.elaiKey ≠ "" then ⟨true, "elai", some c.elaiKey, some c.elaiAvatar⟩
  else ⟨false, "heygen", none, none⟩

/-- The whitespace-run collapse of `re.sub(r'\s+', ' ', text)`: every maximal
whitespace run becomes a single space. -/
def squeeze : List Char → List Char
  | [] => []
  | [c] => if isSpace c then [' '] else [c]
  | c :: d :: cs =>
    if isSpace c && isSpace d then squeeze (d :: cs)
    else (if isSpace c then ' ' else c) :: squeeze (d :: cs)

/-- Removes the trailing whitespace run (the right half of `str.strip`). -/
def dropTrailWs : List Char → List Char
  | [] => []
  | c :: cs =>
    match dropTrailWs cs with
    | [] => if isSpace c then [] else [c]
    | d :: ds => c :: d :: ds

/-- Embeds Python `str.strip()`: drop leading and trailing whitespace. -/
def strip (l : List Char) : List Char := dropTrailWs (l.dropWhile isSpace)

/-- Embeds `re.sub(r'\s+', ' ', text).strip()`. -/
def normWs (l : List Char) : List Char := strip (squeeze l)

/-- Embeds `re.sub(r'\s+([.,!?;:])', r'\1', text)`: a whitespace run directly
followed by a punctuation mark is deleted.  `pend` buffers (reversed) the
whitespace run currently being scanned. -/
def fixBeforeGo : List Char → List Char → List Char
  | pend, [] => pend.reverse
  | pend, c :: cs =>
    if isSpace c then fixBeforeGo (c :: pend) cs
    else if isPunct c then c :: fixBeforeGo [] cs
    else pend.reverse ++ c :: fixBeforeGo [] cs

def fixBefore (l : List Char) : List Char := fixBeforeGo [] l

/-- Embeds `re.sub(r'([.,!?;:])\s*', r'\1 ', text)`: every punctuation mark
and the whitespace run following it are replaced by the mark plus a single
space.  `skip` records that the scanner is inside such a consumed run. -/
def fixAfterGo : Bool → List Char → List Char
  | _, [] => []
  | skip, c :: cs =>
    if skip && isSpace c then fixAfterGo true cs
    else if isPunct c then c :: ' ' :: fixAfterGo true cs
    else c :: fixAfterGo false cs

def fixAfter (l : List Char) : List Char := fixAfterGo false l

/-- The effective character class of the URL regex body
`(?:[a-zA-Z]|[0-9]|[$-_@.&+]|[!*\\(\\),]|(?:%[0-9a-fA-F][0-9a-fA-F]))`:
`[$-_]` is the byte range 0x24-0x5F, which subsumes the digits and the
other listed symbols except the lowercase letters and `!`. -/
def isUrlChar (c : Char) : Bool :=
  (0x24 ≤ c.toNat && c.toNat ≤ 0x5F) || (0x61 ≤ c.toNat && c.toNat ≤ 0x7A) || c == '!'

/-- Matches the nonempty greedy URL body after `http://` or `https://`;
returns the rest of the input on success. -/
def urlBodyTail (l : List Char) : Option (List Char) :=
  match l with
  | c :: _ => if isUrlChar c then some (l.dropWhile isUrlChar) else none
  | [] => none

/-- Matches the URL regex `http[s]?://<body>+` at the head of the input. -/
def matchUrl : List Char → Option (List Char)
  | 'h' :: 't' :: 't' :: 'p' :: 's' :: ':' :: '/' :: '/' :: r => urlBodyTail r
  | 'h' :: 't' :: 't' :: 'p' :: ':' :: '/' :: '/' :: r => urlBodyTail r
  | _ => none

/-- The left-to-right non-overlapping scan of
`re.sub(r'http[s]?://(?:...)+', ' URL ', text)`.  The fuel argument is the
initial length of the input; each step consumes at least one character, so
the fuel never runs out when started at `l.length`. -/
def urlSubGo : Nat → List Char → List Char
  | 0, l => l
  | _ + 1, [] => []
  | n + 1, c :: cs =>
    match matchUrl (c :: cs) with
    | some rest => ' ' :: 'U' :: 'R' :: 'L' :: ' ' :: urlSubGo n rest
    | none => c :: urlSubGo n cs

def urlSub (l : List Char) : List Char := urlSubGo l.length l

/-- Python `\w` (ASCII part): letters, digits, underscore. -/
def isWordChar (c : Char) : Bool := c.isAlphanum || c == '_'

/-- The local-part class `[A-Za-z0-9._%+-]` of the email regex. -/
def isLocalChar (c : Char) : Bool :=
  c.isAlphanum || c == '.' || c == '_' || c == '%' || c == '+' || c == '-'

/-- The domain class `[A-Za-z0-9.-]` of the email regex. -/
def isDomainChar (c : Char) : Bool := c.isAlphanum || c == '.' || c == '-'

/-- The top-level-domain class `[A-Z|a-z]` of the email regex (the `|` is a
literal character inside the class). -/
def isTldChar (c : Char) : Bool := c.isAlpha || c == '|'

/-- Word-ness of the first character of the remaining input (end of input
counts as non-word), used for the trailing `\b` test. -/
def nextWord (l : List Char) : Bool :=
  match l with
  | [] => false
  | c :: _ => isWordChar c

/-- Backtracking search for `[A-Z|a-z]{2,}\b`: `ru` is the reversed greedy
TLD run still under consideration (longest candidate first), `after` the
input following it.  On success returns the word-ness of the last matched
character (for later `\b` tests) and the rest of the input. -/
def tldTries : List Char → List Char → Option (Bool × List Char)
  | [], _ => none
  | c :: rest, after =>
    if !rest.isEmpty && (isWordChar c != nextWord after) then some (isWordChar c, after)
    else tldTries rest (c :: after)

def tldMatch (tail : List Char) : Option (Bool × List Char) :=
  tldTries (tail.takeWhile isTldChar).reverse (tail.dropWhile isTldChar)

/-- Backtracking search for `\.[A-Z|a-z]{2,}\b` inside the greedy domain
run: `rm` is the reversed remaining domain run (so the rightmost `.` is
tried first, matching greedy `[A-Za-z0-9.-]+`), `tail` the input after it;
the `.` must leave a nonempty domain part before it. -/
def dotTries : List Char → List Char → Option (Bool × List Char)
  | [], _ => none
  | c :: rest, tail =>
    if c == '.' && !rest.isEmpty then
      match tldMatch tail with
      | some r => some r
      | none => dotTries rest (c :: tail)
    else dotTries rest (c :: tail)

/-- Matches `\b[A-Za-z0-9._%+-]+@[A-Za-z0-9.-]+\.[A-Z|a-z]{2,}\b` at the
head of the input; `prevWord` is the word-ness of the character before the
current position (for the leading `\b`). -/
def matchEmailAt (prevWord : Bool) (l : List Char) : Option (Bool × List Char) :=
  match l with
  | [] => none
  | c :: _ =>
    if isWordChar c != prevWord then
      if (l.takeWhile isLocalChar).isEmpty then none
      else
        match l.dropWhile isLocalChar with
        | '@' :: r => dotTries (r.takeWhile isDomainChar).reverse (r.dropWhile isDomainChar)
        | _ => none
    else none

/-- The left-to-right non-overlapping scan of
`re.sub(r'\b[A-Za-z0-9._%+-]+@[A-Za-z0-9.-]+\.[A-Z|a-z]{2,}\b', ' EMAIL ', text)`.
Fuel as in `urlSubGo`. -/
def emailSubGo : Nat → Bool → List Char → List Char
  | 0, _, l => l
  | _ + 1, _, [] => []
  | n + 1, pw, c :: cs =>
    match matchEmailAt pw (c :: cs) with
    | some (b, rest) => ' ' :: 'E' :: 'M' :: 'A' :: 'I' :: 'L' :: ' ' :: emailSubGo n b rest
    | none => c :: emailSubGo n (isWordChar c) cs

def emailSub (l : List Char) : List Char := emailSubGo l.length false l

/-- Embeds `_preprocess_text_for_translation` from offline_utils.py:
URL masking, email masking, whitespace collapse + strip, punctuation
spacing fixes, in source order. -/
def preprocessTextForTranslation (text : List Char) : List Char :=
  fixAfter (fixBefore (normWs (emailSub (urlSub text))))

/-- The sentence terminators `[.!?।॥]` of the sentence-split regex. -/
def isSentEnd (c : Char) : Bool :=
  c == '.' || c == '!' || c == '?' || c == '।' || c == '॥'

/-- Embeds `re.split(r'(?<=[.!?।॥])\s+', text)`: split at each whitespace
run directly preceded by a sentence terminator, dropping the run.  `acc`
is the reversed current segment; `delim` records that the scanner is
inside a delimiter run. -/
def splitGo : List Char → Bool → List Char → List (List Char)
  | acc, _, [] => [acc.reverse]
  | acc, delim, c :: cs =>
    if delim && isSpace c then splitGo acc true cs
    else if (match acc with | t :: _ => isSentEnd t | [] => false) && isSpace c then
      acc.reverse :: splitGo [] true cs
    else splitGo (c :: acc) false cs

def splitSentences (l : List Char) : List (List Char) := splitGo [] false l

/-- Embeds `_translate_with_sentence_splitting` from offline_utils.py:
short or single-segment text is translated as one unit, otherwise each
non-blank segment is translated (stripped) and the results joined with
single spaces.  `tr` is the opaque Argos translation handle. -/
def translateWithSentenceSplitting (text : List Char) (tr : List Char → List Char) : List Char :=
  let sentences := splitSentences text
  if sentences.length ≤ 1 ∨ text.length < 100 then tr text
  else
    List.intercalate [' ']
      ((sentences.filter (fun s => !(strip s).isEmpty)).map (fun s => tr (strip s)))

/-- Embeds `_postprocess_translation` from offline_utils.py: punctuation
spacing fixes, whitespace collapse + strip, then first-letter
capitalization for English targets.  Python's `str.upper` on the first
character is embedded as `Char.toUpper`. -/
def postprocessTranslation (text : List Char) (targetLang : String) : List Char :=
  let t1 := fixBefore text
  let t2 := fixAfter t1
  let t3 := normWs t2
  if targetLang == "en" && !t3.isEmpty then
    match t3 with
    | [] => []
    | c :: cs => if cs.isEmpty then [c.toUpper] else c.toUpper :: cs
  else t3

/-- The Argos translation library as seen by `offline_translate`: the
installed language codes (`get_installed_languages`), and the per-pair
translation handle (`Language.get_translation`, `None` when the pair has
no installed package).  A handle is an opaque string-to-string map. -/
structure ArgosEnv where
  installed : List String
  handle : String → String → Option (List Char → List Char)

/-- The observable outcome of `offline_translate`: a translated string, or
the missing-pack warning with the codes it lists, or the no-path warning
with the request endpoints (both warning cases return `None` in Python). -/
inductive TransResult where
  | ok (text : List Char)
  | missingPack (codes : List String)
  | noPath (src tgt : String)
deriving DecidableEq

/-- Embeds `_translate_via_pivot` from offline_utils.py: first hop
`src→pivot`, then second hop `pivot→tgt`, each sentence-segmented; `none`
as soon as either hop handle is missing. -/
def translateViaPivot (env : ArgosEnv) (text : List Char) (src pivot tgt : String) :
    Option (List Char) :=
  match env.handle src pivot with
  | none => none
  | some hop1 =>
    let intermediate := translateWithSentenceSplitting text hop1
    match env.handle pivot tgt with
    | none => none
    | some hop2 => some (translateWithSentenceSplitting intermediate hop2)

/-- Embeds `offline_translate` from offline_utils.py (the Argos-available,
no-exception path): auto-detection, preprocessing, direct translation,
pivot via "en", and the missing-pack / no-path failure reports. -/
def offlineTranslate (env : ArgosEnv) (text : List Char) (srcLang tgtLang : String) :
    TransResult :=
  let src := if srcLang = "auto" then detectLanguageOffline text env.installed else srcLang
  let fromFound := env.installed.contains src
  let toFound := env.installed.contains tgtLang
  let cleanedText := preprocessTextForTranslation text
  let direct := if fromFound && toFound then env.handle src tgtLang else none
  match direct with
  | some translationObj =>
    TransResult.ok
      (postprocessTranslation (translateWithSentenceSplitting cleanedText translationObj) tgtLang)
  | none =>
    let pivotResult :=
      if fromFound && toFound && env.installed.contains "en" && src != tgtLang then
        translateViaPivot env cleanedText src "en" tgtLang
      else none
    match pivotResult with
    | some r => TransResult.ok (postprocessTranslation r tgtLang)
    | none =>
      let missing := (if fromFound then [] else [src]) ++ (if toFound then [] else [tgtLang])
      if missing.isEmpty then TransResult.noPath src tgtLang
      else TransResult.missingPack missing

/-- The exact condition under which `offline_translate` reaches the
`_translate_via_pivot` call (offline_utils.py line 247-248): the direct
attempt produced no handle, both endpoints are installed, the pivot
language "en" is installed, and the two endpoint language objects differ. -/
def pivotAttempted (env : ArgosEnv) (text : List Char) (srcLang tgtLang : String) : Bool :=
  let src := if srcLang = "auto" then detectLanguageOffline text env.installed else srcLang
  let fromFound := env.installed.contains src
  let toFound := env.installed.contains tgtLang
  let direct := if fromFound && toFound then env.handle src tgtLang else none
  direct.isNone && fromFound && toFound && env.installed.contains "en" && src != tgtLang

/-- A concrete environment where "en" is the source language of the request
yet the pivot is still attempted: both endpoints installed, no handle for
any pair. -/
def pivotEnEnv : ArgosEnv := ⟨["en", "hi"], fun _ _ => none⟩

/-- States of the acceptor `sgo` describing the shape of preprocessed text:
`afterPS` = start of text or just after a punctuation-space pair, `afterP` =
just after a punctuation mark (a single space must follow), `norm` = just
after an ordinary character, `afterSp` = just after a space that does not
follow punctuation (an ordinary character must follow). -/
inductive PS where
  | afterPS
  | afterP
  | norm
  | afterSp
deriving DecidableEq

/-- Acceptor for the normal form produced by preprocessing: whitespace is
single plain spaces, never leading or trailing (except as required after
punctuation), every punctuation mark is followed by exactly one space, and
a space precedes a punctuation mark only between two marks. -/
def sgo : PS → List Char → Bool
  | PS.afterPS, [] => true
  | PS.afterP, [] => false
  | PS.norm, [] => true
  | PS.afterSp, [] => false
  | PS.afterP, c :: cs => c == ' ' && sgo PS.afterPS cs
  | PS.afterPS, c :: cs =>
    if isPunct c then sgo PS.afterP cs
    else if isSpace c then false
    else sgo PS.norm cs
  | PS.norm, c :: cs =>
    if isPunct c then sgo PS.afterP cs
    else if c == ' ' then sgo PS.afterSp cs
    else if isSpace c then false
    else sgo PS.norm cs
  | PS.afterSp, c :: cs =>
    if isPunct c || isSpace c then false
    else sgo PS.norm cs

/-- Every whitespace character is a plain space and no two whitespace
characters are adjacent. -/
def wsSingle : List Char → Bool
  | [] => true
  | [c] => !isSpace c || c == ' '
  | c :: d :: cs => (!isSpace c || (c == ' ' && !isSpace d)) && wsSingle (d :: cs)

/-- The last character, if any, is not whitespace. -/
def trailOK : List Char → Bool
  | [] => true
  | [c] => !isSpace c
  | _ :: d :: cs => trailOK (d :: cs)

/-- Some adjacent pair of characters satisfies `p`. -/
def hasPair (p : Char → Char → Bool) : List Char → Bool
  | c :: d :: cs => p c d || hasPair p (d :: cs)
  | _ => false

/-- A punctuation mark followed by anything other than a plain space. -/
def punctNoSpace (a b : Char) : Bool := isPunct a && !(b == ' ')

/-- A colon directly followed by a slash (present in every URL-regex match). -/
def colonSlash (a b : Char) : Bool := a == ':' && b == '/'

/-- A whitespace character directly followed by a punctuation mark. -/
def spacePunct (a b : Char) : Bool := isSpace a && isPunct b

/-- A dot directly followed by a TLD character (present in every
email-regex match). -/
def dotTld (a b : Char) : Bool := a == '.' && isTldChar b

/-- A pivot environment for the spec's ta→bn example: packs installed for
ta, en, bn; hop handles ta→en and en→bn present; no direct ta→bn. -/
def taEnBnEnv : ArgosEnv :=
  ⟨["ta", "en", "bn"],
   fun a b =>
     match a, b with
     | "ta", "en" => some (fun l => 'T' :: l)
     | "en", "bn" => some (fun l => 'B' :: l)
     | _, _ => none⟩

/-- A pivot environment whose first hop ta→en exists but whose second hop
en→bn is missing. -/
def hopMissingEnv : ArgosEnv :=
  ⟨["ta", "en", "bn"],
   fun a b =>
     match a, b with
     | "ta", "en" => some (fun l => 'T' :: l)
     | _, _ => none⟩

/-- The spec's missing-pack example environment: only "en" installed. -/
def onlyEnEnv : ArgosEnv := ⟨["en"], fun _ _ => none⟩

set_option maxHeartbeats 1000000 in
/-- C10: for every text and installed set, `_detect_language_offline`
returns either "en" or a member of the installed-language set. -/
theorem detect_en_or_installed (text : List Char) (installedCodes : List String) :
    detectLanguageOffline text installedCodes = "en" ∨
      detectLanguageOffline text installedCodes ∈ installedCodes := by
  simp only [detectLanguageOffline]
  split_ifs <;> first | exact Or.inl rfl | exact Or.inr (by assumption)

/-- C9: for nonempty text composed purely of Devanagari characters,
`_detect_language_offline` returns "hi" when "hi" is installed, else "en". -/
theorem detect_devanagari (text : List Char) (installedCodes : List String)
    (hne : text ≠ [])
    (hdev : ∀ c ∈ text, 0x900 ≤ c.toNat ∧ c.toNat ≤ 0x97F) :
    detectLanguageOffline text installedCodes =
      (if "hi" ∈ installedCodes then "hi" else "en") := by
  have hcount : text.countP (fun c => 0x900 ≤ c.toNat && c.toNat ≤ 0x97F) = text.length := by
    rw [List.countP_eq_length]
    intro c hc
    have := hdev c hc
    simp [this.1, this.2]
  have hpos : 0 < text.length := List.length_pos.mpr hne
  simp only [detectLanguageOffline]
  rw [hcount]
  rw [if_neg (by omega), if_pos (by omega)]

theorem detect_devanagari_witness :
    detectLanguageOffline ['क'] ["hi"] = "hi" := by
  have h := detect_devanagari ['क'] ["hi"] (by decide) (by decide)
  rw [h]
  decide

/-- C5: the provider selector picks the first provider in the fixed order
D-ID, HeyGen, Synthesia, Elai whose key is non-empty, and signals
no-provider (`use_api = false`, no key) when all keys are empty. -/
theorem selectProvider_priority (c : Creds) :
    (c.didKey ≠ "" →
      selectProvider c = ⟨true, "d-id", some c.didKey, some c.didAvatar⟩) ∧
    (c.didKey = "" → c.heygenKey ≠ "" →
      selectProvider c = ⟨true, "heygen", some c.heygenKey, some c.heygenAvatar⟩) ∧
    (c.didKey = "" → c.heygenKey = "" → c.synthesiaKey ≠ "" →
      selectProvider c = ⟨true, "synthesia", some c.synthesiaKey, some c.synthesiaAvatar⟩) ∧
    (c.didKey = "" → c.heygenKey = "" → c.synthesiaKey = "" → c.elaiKey ≠ "" →
      selectProvider c = ⟨true, "elai", some c.elaiKey, some c.elaiAvatar⟩) ∧
    (c.didKey = "" → c.heygenKey = "" → c.synthesiaKey = "" → c.elaiKey = "" →
      selectProvider c = ⟨false, "heygen", none, none⟩) := by
  unfold selectProvider
  refine ⟨?_, ?_, ?_, ?_, ?_⟩ <;> intros <;> simp_all

theorem selectProvider_priority_witness :
    selectProvider ⟨"", "x", "y", "", "", "hAv", "sAv", ""⟩ =
      ⟨true, "heygen", some "x", some "hAv"⟩ := by
  exact (selectProvider_priority ⟨"", "x", "y", "", "", "hAv", "sAv", ""⟩).2.1
    rfl (by decide)

/-- C7: for text shorter than 100 characters, sentence-segmented
translation equals translating the whole string as a single unit. -/
theorem split_short_single_unit (text : List Char) (tr : List Char → List Char)
    (h : text.length < 100) :
    translateWithSentenceSplitting text tr = tr text := by
  simp only [translateWithSentenceSplitting]
  rw [if_pos (Or.inr h)]

theorem split_short_single_unit_witness :
    translateWithSentenceSplitting
        ('a' :: '.' :: ' ' :: 'b' :: '!' :: ' ' :: 'c' :: '?' :: []) (fun l => 'X' :: l) =
      'X' :: ('a' :: '.' :: ' ' :: 'b' :: '!' :: ' ' :: 'c' :: '?' :: []) :=
  split_short_single_unit _ _ (by decide)

/-- C8: `_postprocess_translation` upper-cases the first character exactly
when the target language is "en" and the normalized string is non-empty;
for any other target the result is the spacing-normalized text with its
casing untouched. -/
theorem postprocess_capitalize_iff_en (text : List Char) (targetLang : String) :
    (targetLang ≠ "en" →
      postprocessTranslation text targetLang = normWs (fixAfter (fixBefore text))) ∧
    (targetLang = "en" →
      postprocessTranslation text targetLang =
        match normWs (fixAfter (fixBefore text)) with
        | [] => []
        | c :: cs => c.toUpper :: cs) := by
  constructor
  · intro h
    have hb : (targetLang == "en") = false := by simpa using h
    simp only [postprocessTranslation, hb, Bool.false_and, if_neg Bool.false_ne_true]
  · intro h
    subst h
    simp only [postprocessTranslation]
    cases hnw : normWs (fixAfter (fixBefore text)) with
    | nil => simp
    | cons c cs => cases cs <;> simp

theorem postprocess_capitalize_iff_en_witness :
    postprocessTranslation ['a', 'b'] "fr" = ['a', 'b'] ∧
      postprocessTranslation ['a', 'b'] "en" = ['A', 'b'] :=
  ⟨((postprocess_capitalize_iff_en ['a', 'b'] "fr").1 (by decide)).trans (by decide),
   ((postprocess_capitalize_iff_en ['a', 'b'] "en").2 rfl).trans (by decide)⟩

/-- C1: when both endpoints are installed, the direct handle is missing,
and both pivot hops via "en" exist, `offline_translate` routes through
"en" and its result is the postprocessing of the second-hop translation of
the first-hop translation of the preprocessed text. -/
theorem pivot_via_en_composes (env : ArgosEnv) (text : List Char) (src tgt : String)
    (f g : List Char → List Char)
    (hauto : src ≠ "auto")
    (hsrc : env.installed.contains src = true)
    (htgt : env.installed.contains tgt = true)
    (hen : env.installed.contains "en" = true)
    (hne : src ≠ tgt)
    (hdirect : env.handle src tgt = none)
    (hhop1 : env.handle src "en" = some f)
    (hhop2 : env.handle "en" tgt = some g) :
    offlineTranslate env text src tgt =
      TransResult.ok
        (postprocessTranslation
          (translateWithSentenceSplitting
            (translateWithSentenceSplitting (preprocessTextForTranslation text) f) g) tgt) := by
  simp only [offlineTranslate, translateViaPivot]
  rw [if_neg hauto, hsrc, htgt, hen, hdirect]
  simp [bne_iff_ne, hne, hhop1, hhop2]

theorem pivot_via_en_composes_witness :
    offlineTranslate taEnBnEnv ['h', 'i'] "ta" "bn" =
      TransResult.ok
        (postprocessTranslation
          (translateWithSentenceSplitting
            (translateWithSentenceSplitting (preprocessTextForTranslation ['h', 'i'])
              (fun l => 'T' :: l))
            (fun l => 'B' :: l)) "bn") :=
  pivot_via_en_composes taEnBnEnv ['h', 'i'] "ta" "bn" _ _
    (by decide) (by decide) (by decide) (by decide) (by decide) rfl rfl rfl

/-- C3: if either pivot hop handle is unavailable, the pivot attempt
yields no output at all (even when the first hop exists and has already
run), and `offline_translate` reports failure rather than any partially
translated string. -/
theorem pivot_hop_missing_no_partial (env : ArgosEnv) (text : List Char) (src tgt : String)
    (hauto : src ≠ "auto")
    (hsrc : env.installed.contains src = true)
    (htgt : env.installed.contains tgt = true)
    (hdirect : env.handle src tgt = none)
    (hhop : env.handle src "en" = none ∨ env.handle "en" tgt = none) :
    (∀ t, translateViaPivot env t src "en" tgt = none) ∧
      offlineTranslate env text src tgt = TransResult.noPath src tgt := by
  have hpiv : ∀ t, translateViaPivot env t src "en" tgt = none := by
    intro t
    rcases hhop with h | h
    · simp [translateViaPivot, h]
    · cases h1 : env.handle src "en" with
      | none => simp [translateViaPivot, h1]
      | some f => simp [translateViaPivot, h1, h]
  refine ⟨hpiv, ?_⟩
  simp only [offlineTranslate]
  rw [if_neg hauto, hsrc, htgt, hdirect, hpiv]
  simp

theorem pivot_hop_missing_no_partial_witness :
    (∀ t, translateViaPivot hopMissingEnv t "ta" "en" "bn" = none) ∧
      offlineTranslate hopMissingEnv ['h', 'i'] "ta" "bn" = TransResult.noPath "ta" "bn" :=
  pivot_hop_missing_no_partial hopMissingEnv ['h', 'i'] "ta" "bn"
    (by decide) (by decide) (by decide) rfl (Or.inr rfl)

/-- C4: when the source and/or target language has no installed model,
`offline_translate` reports the missing-pack failure, and the reported
list holds exactly the endpoint codes that lack an installed model. -/
theorem missing_pack_exact (env : ArgosEnv) (text : List Char) (src tgt : String)
    (hauto : src ≠ "auto")
    (hmiss : env.installed.contains src = false ∨ env.installed.contains tgt = false) :
    ∃ m, offlineTranslate env text src tgt = TransResult.missingPack m ∧
      ∀ c, c ∈ m ↔ ((c = src ∧ env.installed.contains src = false) ∨
                    (c = tgt ∧ env.installed.contains tgt = false)) := by
  simp only [offlineTranslate]
  rw [if_neg hauto]
  cases hf : env.installed.contains src <;> cases ht : env.installed.contains tgt
  · exact ⟨[src, tgt], by simp, by intro c; simp⟩
  · exact ⟨[src], by simp, by intro c; simp⟩
  · exact ⟨[tgt], by simp, by intro c; simp⟩
  · simp_all

theorem missing_pack_exact_witness :
    ∃ m, offlineTranslate onlyEnEnv ['h', 'i'] "fr" "de" = TransResult.missingPack m ∧
      ∀ c, c ∈ m ↔ ((c = "fr" ∧ onlyEnEnv.installed.contains "fr" = false) ∨
                    (c = "de" ∧ onlyEnEnv.installed.contains "de" = false)) :=
  missing_pack_exact onlyEnEnv ['h', 'i'] "fr" "de" (by decide) (Or.inl (by decide))

/-- C2 counterexample: with installed {en, hi} and no handles at all, the
request src="en", tgt="hi" fails its direct attempt and `offline_translate`
does reach `_translate_via_pivot` — although the pivot language "en"
equals the source — refuting "when en equals either endpoint, no pivot
attempt is made". -/
theorem pivot_attempted_with_en_source :
    pivotAttempted pivotEnEnv [] "en" "hi" = true ∧ pivotEnEnv.handle "en" "hi" = none :=
  ⟨by decide, rfl⟩

/-- C2 amended: the pivot is attempted only when "en" is installed and the
two endpoints differ (the code does not require "en" to differ from the
endpoints); but whenever "en" equals either endpoint, the attempt
necessarily produces no output, because the hop it needs is exactly the
direct handle whose absence triggered the attempt. -/
theorem pivot_guard_amended (env : ArgosEnv) (text : List Char) (src tgt : String)
    (hauto : src ≠ "auto") :
    (pivotAttempted env text src tgt = true →
      env.installed.contains "en" = true ∧ src ≠ tgt) ∧
    ((src = "en" ∨ tgt = "en") → pivotAttempted env text src tgt = true →
      ∀ t, translateViaPivot env t src "en" tgt = none) := by
  simp only [pivotAttempted]
  rw [if_neg hauto]
  constructor
  · intro h
    simp only [Bool.and_eq_true] at h
    exact ⟨h.1.2, by simpa [bne_iff_ne] using h.2⟩
  · intro hen h t
    simp only [Bool.and_eq_true] at h
    obtain ⟨⟨⟨⟨hnone, hfrom⟩, hto⟩, _⟩, _⟩ := h
    rw [hfrom, hto] at hnone
    simp at hnone
    rcases hen with he | he
    · subst he
      cases h1 : env.handle "en" "en" with
      | none => simp [translateViaPivot, h1]
      | some f => simp [translateViaPivot, h1, hnone]
    · subst he
      simp [translateViaPivot, hnone]

theorem pivot_guard_amended_witness :
    (pivotEnEnv.installed.contains "en" = true ∧ ("en" : String) ≠ "hi") ∧
      translateViaPivot pivotEnEnv [] "en" "en" "hi" = none :=
  ⟨(pivot_guard_amended pivotEnEnv [] "en" "hi" (by decide)).1 (by decide),
   (pivot_guard_amended pivotEnEnv [] "en" "hi" (by decide)).2 (Or.inl rfl) (by decide) []⟩

theorem isPunct_not_space {c : Char} (h : isPunct c = true) : isSpace c = false := by
  simp only [isPunct, Bool.or_eq_true, beq_iff_eq] at h
  obtain ((((rfl | rfl) | rfl) | rfl) | rfl) | rfl := h <;> decide

theorem space_isSpace : isSpace ' ' = true := by decide

theorem isPunct_space : isPunct ' ' = false := by decide

theorem beq_space_false {c : Char} (h : isSpace c = false) : (c == ' ') = false := by
  rcases hc : c == ' ' with _ | _
  · rfl
  · rw [beq_iff_eq] at hc
    subst hc
    exact absurd h (by decide)

theorem wsSingle_tail {c : Char} {cs : List Char} (h : wsSingle (c :: cs) = true) :
    wsSingle cs = true := by
  cases cs with
  | nil => rfl
  | cons d ds => exact (Bool.and_eq_true_iff.mp h).2

theorem wsSingle_pair {c d : Char} {ds : List Char} (h : wsSingle (c :: d :: ds) = true)
    (hsp : isSpace c = true) : c = ' ' ∧ isSpace d = false := by
  have h1 := (Bool.and_eq_true_iff.mp h).1
  rw [hsp] at h1
  simp only [Bool.not_true, Bool.false_or, Bool.and_eq_true, beq_iff_eq,
    Bool.not_eq_true'] at h1
  exact h1

theorem wsSingle_single {c : Char} (h : wsSingle [c] = true) (hsp : isSpace c = true) :
    c = ' ' := by
  simp only [wsSingle, hsp, Bool.not_true, Bool.false_or, beq_iff_eq] at h
  exact h

theorem trailOK_cons {c : Char} {cs : List Char} (hne : cs ≠ []) :
    trailOK (c :: cs) = trailOK cs := by
  cases cs with
  | nil => exact absurd rfl hne
  | cons d ds => rfl

theorem hasPair_tail {p : Char → Char → Bool} {c : Char} {cs : List Char}
    (h : hasPair p (c :: cs) = false) : hasPair p cs = false := by
  cases cs with
  | nil => rfl
  | cons d ds =>
    have := Bool.or_eq_false_iff.mp h
    exact this.2

theorem hasPair_head {p : Char → Char → Bool} {c d : Char} {ds : List Char}
    (h : hasPair p (c :: d :: ds) = false) : p c d = false :=
  (Bool.or_eq_false_iff.mp h).1

theorem hasPair_here {p : Char → Char → Bool} {a b : Char} (ts : List Char)
    (h : p a b = true) : hasPair p (a :: b :: ts) = true := by
  simp only [hasPair, h, Bool.true_or]

theorem hasPair_cons_of {p : Char → Char → Bool} (x : Char) {ys : List Char}
    (h : hasPair p ys = true) : hasPair p (x :: ys) = true := by
  cases ys with
  | nil => simp [hasPair] at h
  | cons y ys2 => simp only [hasPair, h, Bool.or_true]

theorem hasPair_append_left {p : Char → Char → Bool} (xs : List Char) {ys : List Char}
    (h : hasPair p ys = true) : hasPair p (xs ++ ys) = true := by
  induction xs with
  | nil => exact h
  | cons x xs2 ih => exact hasPair_cons_of x ih

theorem hasPair_mid {p : Char → Char → Bool} (xs : List Char) {a b : Char} (ts : List Char)
    (h : p a b = true) : hasPair p (xs ++ a :: b :: ts) = true :=
  hasPair_append_left xs (hasPair_here ts h)

theorem hasPair_mono {p q : Char → Char → Bool} (hpq : ∀ a b, q a b = true → p a b = true)
    {l : List Char} (h : hasPair p l = false) : hasPair q l = false := by
  induction l with
  | nil => rfl
  | cons c cs ih =>
    cases cs with
    | nil => rfl
    | cons d ds =>
      have h1 := hasPair_head h
      have h2 := ih (hasPair_tail h)
      simp only [hasPair, Bool.or_eq_false_iff]
      refine ⟨?_, h2⟩
      rcases hq : q c d with _ | _
      · rfl
      · exact absurd (hpq c d hq) (by simp [h1])

theorem dropTrailWs_cons {d : Char} {es : List Char}
    (h : isSpace d = false ∨ dropTrailWs es ≠ []) :
    dropTrailWs (d :: es) = d :: dropTrailWs es := by
  cases hes : dropTrailWs es with
  | nil =>
    rcases h with h | h
    · simp [dropTrailWs, hes, h]
    · exact absurd hes h
  | cons x xs => simp [dropTrailWs, hes]

theorem dropTrailWs_ne_nil {l : List Char} {c : Char} (hc : c ∈ l) (h : isSpace c = false) :
    dropTrailWs l ≠ [] := by
  induction l with
  | nil => cases hc
  | cons a as ih =>
    cases hc with
    | head =>
      cases has : dropTrailWs as with
      | nil => simp [dropTrailWs, has, h]
      | cons x xs => simp [dropTrailWs, has]
    | tail _ hmem =>
      have hne := ih hmem
      cases has : dropTrailWs as with
      | nil => exact absurd has hne
      | cons x xs => simp [dropTrailWs, has]

theorem dropTrailWs_head (c : Char) (cs : List Char) :
    dropTrailWs (c :: cs) = [] ∨ ∃ xs, dropTrailWs (c :: cs) = c :: xs := by
  cases h : dropTrailWs cs with
  | nil =>
    by_cases hsp : isSpace c = true
    · left
      simp [dropTrailWs, h, hsp]
    · right
      exact ⟨[], by simp [dropTrailWs, h, hsp]⟩
  | cons x xs =>
    right
    exact ⟨x :: xs, by simp [dropTrailWs, h]⟩

theorem trailOK_dropTrailWs (l : List Char) : trailOK (dropTrailWs l) = true := by
  induction l with
  | nil => rfl
  | cons c cs ih =>
    cases h : dropTrailWs cs with
    | nil =>
      by_cases hsp : isSpace c = true
      · simp [dropTrailWs, h, hsp, trailOK]
      · simp [dropTrailWs, h, hsp, trailOK]
    | cons x xs =>
      have heq : dropTrailWs (c :: cs) = c :: x :: xs := by simp [dropTrailWs, h]
      rw [heq, trailOK]
      rw [h] at ih
      exact ih

theorem wsSingle_dropTrailWs {l : List Char} (h : wsSingle l = true) :
    wsSingle (dropTrailWs l) = true := by
  induction l with
  | nil => rfl
  | cons c cs ih =>
    have ih2 := ih (wsSingle_tail h)
    cases hcs : dropTrailWs cs with
    | nil =>
      by_cases hsp : isSpace c = true
      · simp [dropTrailWs, hcs, hsp, wsSingle]
      · have heq : dropTrailWs (c :: cs) = [c] := by simp [dropTrailWs, hcs, hsp]
        rw [heq]
        simp [wsSingle, hsp]
    | cons x xs =>
      have heq : dropTrailWs (c :: cs) = c :: x :: xs := by simp [dropTrailWs, hcs]
      rw [heq]
      rw [hcs] at ih2
      cases cs with
      | nil => simp [dropTrailWs] at hcs
      | cons d ds =>
        rcases dropTrailWs_head d ds with h0 | ⟨ys, hys⟩
        · rw [h0] at hcs
          cases hcs
        · rw [hys] at hcs
          injection hcs with h1 h2
          subst h1
          subst h2
          have hp := (Bool.and_eq_true_iff.mp h).1
          show ((!isSpace c || (c == ' ' && !isSpace d)) && wsSingle (d :: ys)) = true
          rw [hp, ih2]
          rfl

theorem squeeze_cons_nonspace {d : Char} (cs : List Char) (h : isSpace d = false) :
    ∃ xs, squeeze (d :: cs) = d :: xs := by
  cases cs with
  | nil => exact ⟨[], by simp [squeeze, h]⟩
  | cons e es => exact ⟨squeeze (e :: es), by simp [squeeze, h]⟩

theorem squeeze_id {l : List Char} (h : wsSingle l = true) : squeeze l = l := by
  induction l with
  | nil => rfl
  | cons c cs ih =>
    have ih2 := ih (wsSingle_tail h)
    cases cs with
    | nil =>
      by_cases hsp : isSpace c = true
      · have hc := wsSingle_single h hsp
        subst hc
        simp [squeeze]
      · simp [squeeze, hsp]
    | cons d ds =>
      by_cases hsp : isSpace c = true
      · obtain ⟨hc, hd⟩ := wsSingle_pair h hsp
        subst hc
        simp [squeeze, hd, ih2, space_isSpace]
      · simp [squeeze, hsp, ih2]

theorem wsSingle_dropWhile {l : List Char} (h : wsSingle l = true) :
    wsSingle (l.dropWhile isSpace) = true := by
  induction l with
  | nil => rfl
  | cons c cs ih =>
    rw [List.dropWhile_cons]
    by_cases hsp : isSpace c = true
    · rw [if_pos hsp]
      exact ih (wsSingle_tail h)
    · rw [if_neg hsp]
      exact h

theorem sgo_afterP_dest {cs : List Char} (h : sgo PS.afterP cs = true) :
    ∃ ds, cs = ' ' :: ds ∧ sgo PS.afterPS ds = true := by
  cases cs with
  | nil => cases h
  | cons c cs2 =>
    obtain ⟨h1, h2⟩ := Bool.and_eq_true_iff.mp h
    rw [beq_iff_eq] at h1
    subst h1
    exact ⟨cs2, rfl, h2⟩

theorem sgo_afterPS_head {d : Char} {es : List Char} (h : sgo PS.afterPS (d :: es) = true) :
    isSpace d = false := by
  by_cases hp : isPunct d = true
  · exact isPunct_not_space hp
  · by_cases hs : isSpace d = true
    · simp [sgo, hp, hs] at h
    · simpa using hs

theorem sgo_afterPS_eq_norm {l : List Char}
    (h : match l with | [] => True | c :: _ => isSpace c = false) :
    sgo PS.afterPS l = sgo PS.norm l := by
  cases l with
  | nil => rfl
  | cons c cs =>
    have hsp : isSpace c = false := h
    have hbeq := beq_space_false hsp
    simp [sgo, hsp, hbeq]

theorem fixAfterGo_flag {l : List Char}
    (h : match l with | [] => True | c :: _ => isSpace c = false) :
    fixAfterGo true l = fixAfterGo false l := by
  cases l with
  | nil => rfl
  | cons c cs =>
    have hsp : isSpace c = false := h
    simp [fixAfterGo, hsp]

theorem fixAfterGo_cons_punct {c : Char} (cs : List Char) (hp : isPunct c = true) :
    fixAfterGo false (c :: cs) = c :: ' ' :: fixAfterGo true cs := by
  simp [fixAfterGo, hp]

theorem fixAfterGo_cons_plain {c : Char} (cs : List Char) (hp : isPunct c = false) :
    fixAfterGo false (c :: cs) = c :: fixAfterGo false cs := by
  simp [fixAfterGo, hp]

theorem fixBeforeGo_ne_nil (pend : List Char) (l : List Char) (h : pend ≠ [] ∨ l ≠ []) :
    fixBeforeGo pend l ≠ [] := by
  induction l generalizing pend with
  | nil =>
    rcases h with h | h
    · simpa [fixBeforeGo] using h
    · exact absurd rfl h
  | cons c cs ih =>
    by_cases hs : isSpace c = true
    · rw [show fixBeforeGo pend (c :: cs) = fixBeforeGo (c :: pend) cs from by
        simp [fixBeforeGo, hs]]
      exact ih (c :: pend) (Or.inl (by simp))
    · by_cases hp : isPunct c = true
      · simp [fixBeforeGo, hs, hp]
      · simp [fixBeforeGo, hs, hp]

theorem fixBeforeGo_head {d : Char} (ds : List Char) (hs : isSpace d = false) :
    ∃ xs, fixBeforeGo [] (d :: ds) = d :: xs := by
  by_cases hp : isPunct d = true
  · exact ⟨fixBeforeGo [] ds, by simp [fixBeforeGo, hs, hp]⟩
  · exact ⟨fixBeforeGo [] ds, by simp [fixBeforeGo, hs, hp]⟩

theorem sgo_afterSp_head {d : Char} {es : List Char}
    (h : sgo PS.afterSp (d :: es) = true) :
    isPunct d = false ∧ isSpace d = false ∧ sgo PS.norm es = true := by
  by_cases hp : isPunct d = true
  · simp [sgo, hp] at h
  · by_cases hs : isSpace d = true
    · simp [sgo, hp, hs] at h
    · refine ⟨by simpa using hp, by simpa using hs, ?_⟩
      simpa [sgo, hp, hs] using h

theorem sgo_shape {l : List Char} : ∀ q, sgo q l = true →
    wsSingle l = true ∧ hasPair punctNoSpace l = false := by
  induction l with
  | nil => exact fun q _ => ⟨rfl, rfl⟩
  | cons c cs ih =>
    intro q h
    cases q with
    | afterP =>
      obtain ⟨h1, h2⟩ := Bool.and_eq_true_iff.mp h
      rw [beq_iff_eq] at h1
      subst h1
      have hcs := ih PS.afterPS h2
      constructor
      · cases cs with
        | nil => decide
        | cons d ds =>
          have hd := sgo_afterPS_head h2
          show ((!isSpace ' ' || (' ' == ' ' && !isSpace d)) && wsSingle (d :: ds)) = true
          rw [hd, hcs.1]
          decide
      · cases cs with
        | nil => rfl
        | cons d ds =>
          show (punctNoSpace ' ' d || hasPair punctNoSpace (d :: ds)) = false
          rw [hcs.2]
          simp [punctNoSpace, isPunct]
    | afterPS =>
      by_cases hp : isPunct c = true
      · have h2 : sgo PS.afterP cs = true := by simpa [sgo, hp] using h
        have hcs := ih PS.afterP h2
        obtain ⟨ds, hds, _⟩ := sgo_afterP_dest h2
        subst hds
        have hcsp := isPunct_not_space hp
        constructor
        · show ((!isSpace c || (c == ' ' && !isSpace ' ')) && wsSingle (' ' :: ds)) = true
          rw [hcsp, hcs.1]
          simp
        · show (punctNoSpace c ' ' || hasPair punctNoSpace (' ' :: ds)) = false
          rw [hcs.2]
          simp [punctNoSpace]
      · by_cases hs : isSpace c = true
        · simp [sgo, hp, hs] at h
        · have h2 : sgo PS.norm cs = true := by simpa [sgo, hp, hs] using h
          have hcs := ih PS.norm h2
          constructor
          · cases cs with
            | nil => simp [wsSingle, hs]
            | cons d ds =>
              show ((!isSpace c || (c == ' ' && !isSpace d)) && wsSingle (d :: ds)) = true
              simp [hs, hcs.1]
          · cases cs with
            | nil => rfl
            | cons d ds =>
              show (punctNoSpace c d || hasPair punctNoSpace (d :: ds)) = false
              rw [hcs.2]
              simp [punctNoSpace, hp]
    | norm =>
      by_cases hp : isPunct c = true
      · have h2 : sgo PS.afterP cs = true := by simpa [sgo, hp] using h
        have hcs := ih PS.afterP h2
        obtain ⟨ds, hds, _⟩ := sgo_afterP_dest h2
        subst hds
        have hcsp := isPunct_not_space hp
        constructor
        · show ((!isSpace c || (c == ' ' && !isSpace ' ')) && wsSingle (' ' :: ds)) = true
          rw [hcsp, hcs.1]
          simp
        · show (punctNoSpace c ' ' || hasPair punctNoSpace (' ' :: ds)) = false
          rw [hcs.2]
          simp [punctNoSpace]
      · by_cases hq : (c == ' ') = true
        · rw [beq_iff_eq] at hq
          subst hq
          have h2 : sgo PS.afterSp cs = true := by simpa [sgo, hp] using h
          have hcs := ih PS.afterSp h2
          cases cs with
          | nil => cases h2
          | cons d ds =>
            obtain ⟨hdp, hdsp, _⟩ := sgo_afterSp_head h2
            constructor
            · show ((!isSpace ' ' || (' ' == ' ' && !isSpace d)) && wsSingle (d :: ds)) = true
              rw [hdsp, hcs.1]
              decide
            · show (punctNoSpace ' ' d || hasPair punctNoSpace (d :: ds)) = false
              rw [hcs.2]
              simp [punctNoSpace, isPunct]
        · by_cases hs : isSpace c = true
          · simp [sgo, hp, hq, hs] at h
          · have h2 : sgo PS.norm cs = true := by simpa [sgo, hp, hq, hs] using h
            have hcs := ih PS.norm h2
            constructor
            · cases cs with
              | nil => simp [wsSingle, hs]
              | cons d ds =>
                show ((!isSpace c || (c == ' ' && !isSpace d)) && wsSingle (d :: ds)) = true
                simp [hs, hcs.1]
            · cases cs with
              | nil => rfl
              | cons d ds =>
                show (punctNoSpace c d || hasPair punctNoSpace (d :: ds)) = false
                rw [hcs.2]
                simp [punctNoSpace, hp]
    | afterSp =>
      by_cases hp : isPunct c = true
      · simp [sgo, hp] at h
      · by_cases hs : isSpace c = true
        · simp [sgo, hp, hs] at h
        · have h2 : sgo PS.norm cs = true := by simpa [sgo, hp, hs] using h
          have hcs := ih PS.norm h2
          constructor
          · cases cs with
            | nil => simp [wsSingle, hs]
            | cons d ds =>
              show ((!isSpace c || (c == ' ' && !isSpace d)) && wsSingle (d :: ds)) = true
              simp [hs, hcs.1]
          · cases cs with
            | nil => rfl
            | cons d ds =>
              show (punctNoSpace c d || hasPair punctNoSpace (d :: ds)) = false
              rw [hcs.2]
              simp [punctNoSpace, hp]

theorem fixBeforeGo_cons_nonspace {c : Char} (cs : List Char) (hs : isSpace c = false) :
    fixBeforeGo [] (c :: cs) = c :: fixBeforeGo [] cs := by
  by_cases hp : isPunct c = true <;> simp [fixBeforeGo, hs, hp]

theorem fixBefore_shape : ∀ (n : Nat) (l : List Char), l.length ≤ n →
    wsSingle l = true → trailOK l = true →
    wsSingle (fixBeforeGo [] l) = true ∧ trailOK (fixBeforeGo [] l) = true ∧
      hasPair spacePunct (fixBeforeGo [] l) = false := by
  intro n
  induction n with
  | zero =>
    intro l hlen _ _
    have hl : l = [] := List.length_eq_zero.mp (Nat.le_zero.mp hlen)
    subst hl
    exact ⟨rfl, rfl, rfl⟩
  | succ n ih =>
    intro l hlen hws htr
    cases l with
    | nil => exact ⟨rfl, rfl, rfl⟩
    | cons c cs =>
      by_cases hs : isSpace c = true
      · cases cs with
        | nil => simp [trailOK, hs] at htr
        | cons d ds =>
          obtain ⟨hc, hd⟩ := wsSingle_pair hws hs
          subst hc
          have hlen2 : (d :: ds).length ≤ n := by
            simp at hlen ⊢
            omega
          by_cases hp : isPunct d = true
          · have heq : fixBeforeGo [] (' ' :: d :: ds) = fixBeforeGo [] (d :: ds) := by
              simp [fixBeforeGo, hd, hp, space_isSpace]
            rw [heq]
            exact ih (d :: ds) hlen2 (wsSingle_tail hws) htr
          · have heq : fixBeforeGo [] (' ' :: d :: ds) = ' ' :: d :: fixBeforeGo [] ds := by
              simp [fixBeforeGo, hd, hp, space_isSpace]
            have heq2 : fixBeforeGo [] (d :: ds) = d :: fixBeforeGo [] ds :=
              fixBeforeGo_cons_nonspace ds hd
            obtain ⟨w1, w2, w3⟩ := ih (d :: ds) hlen2 (wsSingle_tail hws) htr
            rw [heq2] at w1 w2 w3
            rw [heq]
            refine ⟨?_, ?_, ?_⟩
            · show ((!isSpace ' ' || (' ' == ' ' && !isSpace d)) &&
                wsSingle (d :: fixBeforeGo [] ds)) = true
              rw [hd, w1]
              decide
            · show trailOK (d :: fixBeforeGo [] ds) = true
              exact w2
            · show (spacePunct ' ' d || hasPair spacePunct (d :: fixBeforeGo [] ds)) = false
              rw [w3]
              simp [spacePunct, hp]
      · have hs2 : isSpace c = false := by simpa using hs
        have heq : fixBeforeGo [] (c :: cs) = c :: fixBeforeGo [] cs :=
          fixBeforeGo_cons_nonspace cs hs2
        rw [heq]
        cases cs with
        | nil =>
          refine ⟨?_, ?_, rfl⟩
          · simp [fixBeforeGo, wsSingle, hs2]
          · simp [fixBeforeGo, trailOK, hs2]
        | cons d ds =>
          have hlen2 : (d :: ds).length ≤ n := by
            simp at hlen ⊢
            omega
          obtain ⟨w1, w2, w3⟩ := ih (d :: ds) hlen2 (wsSingle_tail hws) htr
          cases hR : fixBeforeGo [] (d :: ds) with
          | nil => exact absurd hR (fixBeforeGo_ne_nil [] (d :: ds) (Or.inr (by simp)))
          | cons x xs =>
            rw [hR] at w1 w2 w3
            refine ⟨?_, ?_, ?_⟩
            · show ((!isSpace c || (c == ' ' && !isSpace x)) && wsSingle (x :: xs)) = true
              rw [hs2, w1]
              simp
            · show trailOK (x :: xs) = true
              exact w2
            · show (spacePunct c x || hasPair spacePunct (x :: xs)) = false
              rw [w3]
              simp [spacePunct, hs2]

theorem fixAfterGo_head {d : Char} (ds : List Char) (_hs : isSpace d = false) :
    ∃ xs, fixAfterGo false (d :: ds) = d :: xs := by
  by_cases hp : isPunct d = true
  · exact ⟨' ' :: fixAfterGo true ds, by simp [fixAfterGo, hp]⟩
  · exact ⟨fixAfterGo false ds, by simp [fixAfterGo, hp]⟩

theorem fixAfter_shape : ∀ (n : Nat) (T : List Char), T.length ≤ n →
    wsSingle T = true → trailOK T = true → hasPair spacePunct T = false →
    sgo PS.norm (fixAfterGo false T) = true := by
  intro n
  induction n with
  | zero =>
    intro T hlen _ _ _
    have hT : T = [] := List.length_eq_zero.mp (Nat.le_zero.mp hlen)
    subst hT
    rfl
  | succ n ih =>
    intro T hlen hws htr hpair
    cases T with
    | nil => rfl
    | cons c cs =>
      by_cases hp : isPunct c = true
      · rw [fixAfterGo_cons_punct cs hp]
        have hgoal : sgo PS.norm (c :: ' ' :: fixAfterGo true cs) =
            sgo PS.afterPS (fixAfterGo true cs) := by
          simp [sgo, hp]
        rw [hgoal]
        cases cs with
        | nil => rfl
        | cons d ds =>
          by_cases hd : isSpace d = true
          · cases ds with
            | nil => simp [trailOK, hd] at htr
            | cons e es =>
              obtain ⟨hd2, he⟩ := wsSingle_pair (wsSingle_tail hws) hd
              subst hd2
              have hskip : fixAfterGo true (' ' :: e :: es) = fixAfterGo true (e :: es) := by
                simp [fixAfterGo, space_isSpace]
              rw [hskip, fixAfterGo_flag (l := e :: es) he]
              obtain ⟨xs, hxs⟩ := fixAfterGo_head es he
              rw [sgo_afterPS_eq_norm (by rw [hxs]; exact he)]
              have hlen2 : (e :: es).length ≤ n := by
                simp at hlen ⊢
                omega
              exact ih (e :: es) hlen2 (wsSingle_tail (wsSingle_tail hws)) htr
                (hasPair_tail (hasPair_tail hpair))
          · have hd2 : isSpace d = false := by simpa using hd
            rw [fixAfterGo_flag (l := d :: ds) hd2]
            obtain ⟨xs, hxs⟩ := fixAfterGo_head ds hd2
            rw [sgo_afterPS_eq_norm (by rw [hxs]; exact hd2)]
            have hlen2 : (d :: ds).length ≤ n := by
              simp at hlen ⊢
              omega
            exact ih (d :: ds) hlen2 (wsSingle_tail hws) htr (hasPair_tail hpair)
      · by_cases hs : isSpace c = true
        · cases cs with
          | nil => simp [trailOK, hs] at htr
          | cons d ds =>
            obtain ⟨hc, hd⟩ := wsSingle_pair hws hs
            subst hc
            have hdp : isPunct d = false := by
              have := hasPair_head hpair
              simpa [spacePunct, space_isSpace] using this
            have heq : fixAfterGo false (' ' :: d :: ds) =
                ' ' :: fixAfterGo false (d :: ds) := by
              simp [fixAfterGo, isPunct]
            rw [heq]
            obtain ⟨xs, hxs⟩ := fixAfterGo_head ds hd
            have hlen2 : (d :: ds).length ≤ n := by
              simp at hlen ⊢
              omega
            have hih := ih (d :: ds) hlen2 (wsSingle_tail hws) htr (hasPair_tail hpair)
            rw [hxs] at hih
            have hnorm : sgo PS.norm xs = true := by
              have hq := beq_space_false hd
              simpa [sgo, hdp, hd, hq] using hih
            rw [hxs]
            have hq := beq_space_false hd
            simp [sgo, hdp, hd, hq, hnorm, isPunct_space]
        · have hs2 : isSpace c = false := by simpa using hs
          rw [fixAfterGo_cons_plain cs (by simpa using hp)]
          have hq := beq_space_false hs2
          have hlen2 : cs.length ≤ n := by
            simp at hlen
            omega
          have htr2 : trailOK cs = true := by
            cases cs with
            | nil => rfl
            | cons d ds => exact htr
          have hih := ih cs hlen2 (wsSingle_tail hws) htr2 (hasPair_tail hpair)
          simpa [sgo, hp, hs2, hq] using hih

theorem wsSingle_squeeze (y : List Char) : wsSingle (squeeze y) = true := by
  induction y using squeeze.induct with
  | case1 => rfl
  | case2 c hs => simp [squeeze, hs, wsSingle]
  | case3 c hs => simp [squeeze, hs, wsSingle]
  | case4 c d cs hcd ih =>
    have heq : squeeze (c :: d :: cs) = squeeze (d :: cs) := by
      rw [squeeze, if_pos hcd]
    rw [heq]
    exact ih
  | case5 c d cs hcd ih =>
    have heq : squeeze (c :: d :: cs) =
        (if isSpace c then ' ' else c) :: squeeze (d :: cs) := by
      rw [squeeze, if_neg hcd]
    rw [heq]
    by_cases hc : isSpace c = true
    · have hd : isSpace d = false := by
        rcases hd2 : isSpace d with _ | _
        · rfl
        · exact absurd (by rw [hc, hd2]; rfl) hcd
      obtain ⟨xs, hxs⟩ := squeeze_cons_nonspace cs hd
      rw [if_pos hc, hxs]
      show ((!isSpace ' ' || (' ' == ' ' && !isSpace d)) && wsSingle (d :: xs)) = true
      rw [hd]
      rw [hxs] at ih
      rw [ih]
      decide
    · have hc2 : isSpace c = false := by simpa using hc
      rw [if_neg hc]
      cases hR : squeeze (d :: cs) with
      | nil => simp [wsSingle, hc2]
      | cons x xs =>
        rw [hR] at ih
        show ((!isSpace c || (c == ' ' && !isSpace x)) && wsSingle (x :: xs)) = true
        rw [hc2, ih]
        simp

theorem dropWhile_head_nonspace (l : List Char) :
    match l.dropWhile isSpace with | [] => True | c :: _ => isSpace c = false := by
  induction l with
  | nil => trivial
  | cons c cs ih =>
    rw [List.dropWhile_cons]
    by_cases hs : isSpace c = true
    · rw [if_pos hs]
      exact ih
    · rw [if_neg hs]
      simpa using hs

theorem pass1_shape (y : List Char) :
    sgo PS.afterPS (fixAfterGo false (fixBeforeGo [] (normWs y))) = true := by
  have hws : wsSingle (normWs y) = true :=
    wsSingle_dropTrailWs (wsSingle_dropWhile (wsSingle_squeeze y))
  have htr : trailOK (normWs y) = true := trailOK_dropTrailWs _
  obtain ⟨m1, m2, m3⟩ := fixBefore_shape (normWs y).length (normWs y) le_rfl hws htr
  have hnorm := fixAfter_shape (fixBeforeGo [] (normWs y)).length _ le_rfl m1 m2 m3
  cases hN : normWs y with
  | nil => rfl
  | cons c cs =>
    have hc : isSpace c = false := by
      have hh := dropWhile_head_nonspace (squeeze y)
      cases hu : (squeeze y).dropWhile isSpace with
      | nil =>
        rw [show normWs y = dropTrailWs ((squeeze y).dropWhile isSpace) from rfl, hu] at hN
        cases hN
      | cons u us =>
        rw [hu] at hh
        rcases dropTrailWs_head u us with h0 | ⟨xs, hxs⟩
        · rw [show normWs y = dropTrailWs ((squeeze y).dropWhile isSpace) from rfl, hu, h0] at hN
          cases hN
        · rw [show normWs y = dropTrailWs ((squeeze y).dropWhile isSpace) from rfl, hu, hxs] at hN
          injection hN with h1 _
          exact h1 ▸ hh
    rw [hN] at hnorm
    obtain ⟨xs, hxs⟩ := fixBeforeGo_head cs hc
    rw [hxs] at hnorm ⊢
    obtain ⟨ys, hys⟩ := fixAfterGo_head xs hc
    rw [hys] at hnorm ⊢
    rw [sgo_afterPS_eq_norm (by exact hc)]
    exact hnorm

theorem sgo_roundtrip : ∀ (n : Nat) (s : List Char), s.length ≤ n →
    ∀ q, (q = PS.afterPS ∨ q = PS.norm) → sgo q s = true →
    fixAfterGo false (fixBeforeGo [] (dropTrailWs s)) = s := by
  intro n
  induction n with
  | zero =>
    intro s hlen q _ _
    have hsnil : s = [] := List.length_eq_zero.mp (Nat.le_zero.mp hlen)
    subst hsnil
    rfl
  | succ n ih =>
    intro s hlen q hq hs
    cases s with
    | nil => rfl
    | cons c cs =>
      by_cases hp : isPunct c = true
      · have hcns : isSpace c = false := isPunct_not_space hp
        have h2 : sgo PS.afterP cs = true := by
          rcases hq with rfl | rfl <;> simpa [sgo, hp] using hs
        obtain ⟨ds, rfl, hds⟩ := sgo_afterP_dest h2
        cases ds with
        | nil =>
          simp [dropTrailWs, fixBeforeGo, fixAfterGo, hp, hcns, space_isSpace]
        | cons d es =>
          have hdns : isSpace d = false := sgo_afterPS_head hds
          have t1 : dropTrailWs (d :: es) ≠ [] :=
            dropTrailWs_ne_nil (List.mem_cons_self d es) hdns
          have e1 : dropTrailWs (' ' :: d :: es) = ' ' :: dropTrailWs (d :: es) :=
            dropTrailWs_cons (Or.inr t1)
          have t2 : dropTrailWs (' ' :: d :: es) ≠ [] := by
            rw [e1]
            simp
          have e2 : dropTrailWs (c :: ' ' :: d :: es) = c :: ' ' :: dropTrailWs (d :: es) := by
            rw [dropTrailWs_cons (Or.inr t2), e1]
          rw [e2]
          rcases dropTrailWs_head d es with h0 | ⟨ys, hys⟩
          · exact absurd h0 t1
          · rw [hys]
            have hlen2 : (d :: es).length ≤ n := by
              simp at hlen ⊢
              omega
            have hIH := ih (d :: es) hlen2 PS.afterPS (Or.inl rfl) hds
            rw [hys] at hIH
            obtain ⟨zs, hzs⟩ := fixBeforeGo_head ys hdns
            by_cases hdp : isPunct d = true
            · have eb : fixBeforeGo [] (c :: ' ' :: d :: ys) =
                  c :: fixBeforeGo [] (d :: ys) := by
                simp [fixBeforeGo, hcns, hp, space_isSpace, hdns, hdp]
              rw [eb, fixAfterGo_cons_punct _ hp, hzs, fixAfterGo_flag (by exact hdns),
                ← hzs, hIH]
            · have eb : fixBeforeGo [] (c :: ' ' :: d :: ys) =
                  c :: ' ' :: fixBeforeGo [] (d :: ys) := by
                simp [fixBeforeGo, hcns, hp, space_isSpace, hdns, hdp]
              rw [eb, fixAfterGo_cons_punct _ hp]
              have eskip : fixAfterGo true (' ' :: fixBeforeGo [] (d :: ys)) =
                  fixAfterGo true (fixBeforeGo [] (d :: ys)) := by
                simp [fixAfterGo, space_isSpace]
              rw [eskip, hzs, fixAfterGo_flag (by exact hdns), ← hzs, hIH]
      · by_cases hsp : isSpace c = true
        · rcases hq with rfl | rfl
          · simp [sgo, hp, hsp] at hs
          · by_cases hq2 : (c == ' ') = true
            · rw [beq_iff_eq] at hq2
              subst hq2
              have h2 : sgo PS.afterSp cs = true := by simpa [sgo, hp] using hs
              cases cs with
              | nil => cases h2
              | cons d ds =>
                obtain ⟨hdp, hdns, hnorm⟩ := sgo_afterSp_head h2
                have t1 : dropTrailWs (d :: ds) ≠ [] :=
                  dropTrailWs_ne_nil (List.mem_cons_self d ds) hdns
                have e1 : dropTrailWs (' ' :: d :: ds) = ' ' :: dropTrailWs (d :: ds) :=
                  dropTrailWs_cons (Or.inr t1)
                rw [e1]
                rcases dropTrailWs_head d ds with h0 | ⟨ys, hys⟩
                · exact absurd h0 t1
                · rw [hys]
                  have hnorm2 : sgo PS.norm (d :: ds) = true := by
                    simpa [sgo, hdp, hdns, beq_space_false hdns] using hnorm
                  have hlen2 : (d :: ds).length ≤ n := by
                    simp at hlen ⊢
                    omega
                  have hIH := ih (d :: ds) hlen2 PS.norm (Or.inr rfl) hnorm2
                  rw [hys] at hIH
                  have eb : fixBeforeGo [] (' ' :: d :: ys) =
                      ' ' :: fixBeforeGo [] (d :: ys) := by
                    simp [fixBeforeGo, space_isSpace, hdns, hdp]
                  rw [eb, fixAfterGo_cons_plain _ isPunct_space, hIH]
            · simp [sgo, hp, hq2, hsp] at hs
        · have hs2 : isSpace c = false := by simpa using hsp
          have hp2 : isPunct c = false := by simpa using hp
          have h2 : sgo PS.norm cs = true := by
            rcases hq with rfl | rfl <;>
              simpa [sgo, hp, hs2, beq_space_false hs2] using hs
          have e1 : dropTrailWs (c :: cs) = c :: dropTrailWs cs :=
            dropTrailWs_cons (Or.inl hs2)
          have hlen2 : cs.length ≤ n := by
            simp at hlen
            omega
          rw [e1, fixBeforeGo_cons_nonspace _ hs2, fixAfterGo_cons_plain _ hp2,
            ih cs hlen2 PS.norm (Or.inr rfl) h2]

theorem matchUrl_none {l : List Char} (h : hasPair colonSlash l = false) :
    matchUrl l = none := by
  rw [matchUrl.eq_def]
  split
  · exfalso
    simp [hasPair, colonSlash] at h
  · exfalso
    simp [hasPair, colonSlash] at h
  · rfl

theorem urlSubGo_id : ∀ (n : Nat) (l : List Char), hasPair colonSlash l = false →
    urlSubGo n l = l := by
  intro n
  induction n with
  | zero => intro l _; rfl
  | succ n ih =>
    intro l h
    cases l with
    | nil => rfl
    | cons c cs => simp [urlSubGo, matchUrl_none h, ih cs (hasPair_tail h)]

theorem tldTries_some_ne {ru after : List Char} {r : Bool × List Char}
    (h : tldTries ru after = some r) : ru ≠ [] := by
  cases ru with
  | nil => cases h
  | cons c rest => simp

theorem tldMatch_head {tail : List Char} {r : Bool × List Char}
    (h : tldMatch tail = some r) : ∃ t ts, tail = t :: ts ∧ isTldChar t = true := by
  unfold tldMatch at h
  cases tail with
  | nil => cases h
  | cons t ts =>
    by_cases ht : isTldChar t = true
    · exact ⟨t, ts, rfl, ht⟩
    · rw [List.takeWhile_cons, if_neg (by simp [ht])] at h
      cases h

theorem dotTries_pair : ∀ (rm tail : List Char) (r : Bool × List Char),
    dotTries rm tail = some r → hasPair dotTld (rm.reverse ++ tail) = true := by
  intro rm
  induction rm with
  | nil => intro tail r h; cases h
  | cons c rest ih =>
    intro tail r h
    rw [dotTries] at h
    by_cases hg : (c == '.' && !rest.isEmpty) = true
    · rw [if_pos hg] at h
      cases hm : tldMatch tail with
      | some r2 =>
        obtain ⟨hc, _⟩ := Bool.and_eq_true_iff.mp hg
        rw [beq_iff_eq] at hc
        subst hc
        obtain ⟨t, ts, rfl, ht⟩ := tldMatch_head hm
        rw [show ('.' :: rest).reverse ++ t :: ts = rest.reverse ++ '.' :: t :: ts from by
          simp]
        exact hasPair_mid _ _ (by simp [dotTld, ht])
      | none =>
        rw [hm] at h
        have hrec := ih (c :: tail) r h
        rw [show (c :: rest).reverse ++ tail = rest.reverse ++ c :: tail from by simp]
        exact hrec
    · rw [if_neg hg] at h
      have hrec := ih (c :: tail) r h
      rw [show (c :: rest).reverse ++ tail = rest.reverse ++ c :: tail from by simp]
      exact hrec

theorem matchEmailAt_pair {pw : Bool} {l : List Char} {r : Bool × List Char}
    (h : matchEmailAt pw l = some r) : hasPair dotTld l = true := by
  cases l with
  | nil => cases h
  | cons c cs =>
    simp only [matchEmailAt] at h
    by_cases hb : (isWordChar c != pw) = true
    · rw [if_pos hb] at h
      by_cases hloc : ((c :: cs).takeWhile isLocalChar).isEmpty = true
      · rw [if_pos hloc] at h
        cases h
      · rw [if_neg hloc] at h
        cases hdw : (c :: cs).dropWhile isLocalChar with
        | nil =>
          rw [hdw] at h
          cases h
        | cons a r0 =>
          rw [hdw] at h
          split at h
          · rename_i r1 heq
            injection heq with ha hr0
            subst ha
            subst hr0
            have hp := dotTries_pair _ _ _ h
            rw [List.reverse_reverse, List.takeWhile_append_dropWhile] at hp
            have hl : c :: cs = ((c :: cs).takeWhile isLocalChar) ++ '@' :: r0 := by
              conv_lhs => rw [← List.takeWhile_append_dropWhile isLocalChar (c :: cs)]
              rw [hdw]
            rw [hl]
            exact hasPair_append_left _ (hasPair_cons_of '@' hp)
          · cases h
    · rw [if_neg hb] at h
      cases h

theorem emailSubGo_id : ∀ (n : Nat) (pw : Bool) (l : List Char),
    hasPair dotTld l = false → emailSubGo n pw l = l := by
  intro n
  induction n with
  | zero => intro pw l _; rfl
  | succ n ih =>
    intro pw l h
    cases l with
    | nil => rfl
    | cons c cs =>
      cases hm : matchEmailAt pw (c :: cs) with
      | some r => exact absurd (matchEmailAt_pair hm) (by simp [h])
      | none => simp [emailSubGo, hm, ih (isWordChar c) cs (hasPair_tail h)]

theorem colonSlash_le (a b : Char) (h : colonSlash a b = true) : punctNoSpace a b = true := by
  obtain ⟨h1, h2⟩ := Bool.and_eq_true_iff.mp h
  rw [beq_iff_eq] at h1 h2
  subst h1
  subst h2
  decide

theorem dotTld_le (a b : Char) (h : dotTld a b = true) : punctNoSpace a b = true := by
  obtain ⟨h1, h2⟩ := Bool.and_eq_true_iff.mp h
  rw [beq_iff_eq] at h1
  subst h1
  have hb : (b == ' ') = false := by
    rcases he : b == ' ' with _ | _
    · rfl
    · rw [beq_iff_eq] at he
      subst he
      exact absurd h2 (by decide)
  show (isPunct '.' && !(b == ' ')) = true
  rw [hb]
  decide

/-- C6: `_preprocess_text_for_translation` is idempotent: applying it to
its own output changes nothing.  The output has every punctuation mark
followed by a single space (so the URL and email regexes, which need `://`
or `.xx`, can no longer match) and single, non-leading spaces (so the
whitespace collapse and strip only remove the possible trailing space a
final punctuation mark received, which the spacing pass reinstates). -/
theorem preprocess_idempotent (x : List Char) :
    preprocessTextForTranslation (preprocessTextForTranslation x) =
      preprocessTextForTranslation x := by
  have hsgoS : sgo PS.afterPS (preprocessTextForTranslation x) = true :=
    pass1_shape (emailSub (urlSub x))
  obtain ⟨hws, hpair⟩ := sgo_shape PS.afterPS hsgoS
  have hu : urlSub (preprocessTextForTranslation x) = preprocessTextForTranslation x :=
    urlSubGo_id _ _ (hasPair_mono colonSlash_le hpair)
  have he : emailSub (preprocessTextForTranslation x) = preprocessTextForTranslation x :=
    emailSubGo_id _ _ _ (hasPair_mono dotTld_le hpair)
  have hsq : squeeze (preprocessTextForTranslation x) = preprocessTextForTranslation x :=
    squeeze_id hws
  have hdw : (preprocessTextForTranslation x).dropWhile isSpace =
      preprocessTextForTranslation x := by
    cases hP : preprocessTextForTranslation x with
    | nil => rfl
    | cons c cs =>
      rw [hP] at hsgoS
      have hc := sgo_afterPS_head hsgoS
      rw [List.dropWhile_cons, if_neg (by simp [hc])]
  show fixAfterGo false (fixBeforeGo []
    (normWs (emailSub (urlSub (preprocessTextForTranslation x))))) =
    preprocessTextForTranslation x
  rw [hu, he]
  show fixAfterGo false (fixBeforeGo []
    (dropTrailWs ((squeeze (preprocessTextForTranslation x)).dropWhile isSpace))) =
    preprocessTextForTranslation x
  rw [hsq, hdw]
  exact sgo_roundtrip (preprocessTextForTranslation x).length _ le_rfl PS.afterPS
    (Or.inl rfl) hsgoS
